import Mathlib

/-!
# Verification of the ecl_file indexing and block-extraction engine

A shallow embedding of `src/devel/libecl/src/ecl_file.c`.  The embedding
follows the C source function by function:

* `ecl_file_kw`    — the `ecl_file_kw_type` handle created during the scan
                     (header name and the stored byte offset).
* `ecl_file_map`   — `ecl_file_map_struct`: `kw_list`, `kw_index` (the hash
                     table of integer vectors, modelled as an association
                     list), `distinct_kw` and the `owner` flag.
* `ecl_file`       — `ecl_file_struct`: `global_map`, `active_map`,
                     `map_list`.

Hash-table operations (`hash_get`, `hash_has_key`, `hash_insert`,
`int_vector_append`) are modelled on the association list; functions of the
C code that `util_abort` on a violated precondition (`vector_iget`,
`int_vector_iget` out of range, the reverse-lookup failure in
`ecl_file_map_iget_occurence`) are modelled as returning `none`.

The file stream consumed by `ecl_file_scan` is modelled as a list of header
read outcomes: `some r` is a successful `ecl_kw_fread_header` delivering a
record description `r` (name, header byte size, payload byte size), `none`
is a failed header read, which terminates the scan.
-/

set_option autoImplicit false
set_option linter.unusedVariables false

/-- One record description of the modelled input stream: the name delivered
by `ecl_kw_fread_header`, the number of bytes the header occupies and the
number of bytes `ecl_file_kw_fskip_data` skips. -/
structure raw_record where
  name : String
  header_size : Nat
  payload_size : Nat
deriving DecidableEq

/-- The part of `ecl_file_kw_type` created by `ecl_file_kw_alloc` during the
scan that the index engine uses: the header name and the stored offset. -/
structure ecl_file_kw where
  header : String
  file_offset : Nat
deriving DecidableEq

/-- `ecl_file_map_struct`: the `kw_index` hash table of `int_vector`
instances is modelled as an association list from names to position
lists. -/
structure ecl_file_map where
  kw_list : List ecl_file_kw
  kw_index : List (String × List Nat)
  distinct_kw : List String
  owner : Bool
deriving DecidableEq

/-- `hash_get` / `hash_has_key` on the modelled `kw_index`: the first entry
with the given key, if any. -/
def assocLookup : List (String × List Nat) → String → Option (List Nat)
  | [], _ => none
  | (k, v) :: rest, key => if k = key then some v else assocLookup rest key

/-- `int_vector_append` applied to the vector stored under `key`: replaces
the entry for `key` by the entry with `i` appended (in the C code the
vector is mutated in place inside the hash table). -/
def assocAppend : List (String × List Nat) → String → Nat → List (String × List Nat)
  | [], _, _ => []
  | (k, v) :: rest, key, i =>
    if k = key then (k, v ++ [i]) :: rest
    else (k, v) :: assocAppend rest key i

/-- `ecl_file_map_alloc`: a fresh map with empty `kw_list`, `kw_index` and
`distinct_kw`. -/
def ecl_file_map_alloc (owner : Bool) : ecl_file_map :=
  { kw_list := [], kw_index := [], distinct_kw := [], owner := owner }

/-- The loop body of `ecl_file_map_make_index`: walk `kw_list` with the
running position `i`; when the header is not yet a key, insert an empty
vector and append the header to `distinct_kw`; in every case append `i` to
the header's vector. -/
def ecl_file_map_make_index_go :
    List ecl_file_kw → Nat → List (String × List Nat) → List String →
      List (String × List Nat) × List String
  | [], _, kw_index, distinct_kw => (kw_index, distinct_kw)
  | file_kw :: rest, i, kw_index, distinct_kw =>
    if (assocLookup kw_index file_kw.header).isSome then
      ecl_file_map_make_index_go rest (i + 1)
        (assocAppend kw_index file_kw.header i) distinct_kw
    else
      ecl_file_map_make_index_go rest (i + 1)
        (assocAppend (kw_index ++ [(file_kw.header, [])]) file_kw.header i)
        (distinct_kw ++ [file_kw.header])

/-- `ecl_file_map_make_index`: clear `distinct_kw` and `kw_index` and
rebuild both from `kw_list`. -/
def ecl_file_map_make_index (file_map : ecl_file_map) : ecl_file_map :=
  let r := ecl_file_map_make_index_go file_map.kw_list 0 [] []
  { file_map with kw_index := r.1, distinct_kw := r.2 }

/-- `ecl_file_map_has_kw`: `hash_has_key( kw_index , kw )`. -/
def ecl_file_map_has_kw (file_map : ecl_file_map) (kw : String) : Bool :=
  (assocLookup file_map.kw_index kw).isSome

/-- `ecl_file_map_get_num_named_kw`: size of the index vector when the key
is present, otherwise `0`. -/
def ecl_file_map_get_num_named_kw (file_map : ecl_file_map) (kw : String) : Nat :=
  match assocLookup file_map.kw_index kw with
  | some index_vector => index_vector.length
  | none => 0

/-- `ecl_file_map_get_global_index`: `hash_get` (aborts when the key is
absent, modelled as `none`) followed by `int_vector_iget` (aborts when
`ith` is out of range, modelled as `none`). -/
def ecl_file_map_get_global_index (file_map : ecl_file_map) (kw : String) (ith : Nat) :
    Option Nat :=
  match assocLookup file_map.kw_index kw with
  | none => none
  | some index_vector => index_vector[ith]?

/-- The manual reverse-lookup loop of `ecl_file_map_iget_occurence`:
`for i in [0, size): if data[i] == global_index then occurence = i`,
starting from `occurence = -1` (`none`). -/
def occurence_scan : List Nat → Nat → Nat → Option Nat → Option Nat
  | [], _, _, acc => acc
  | x :: rest, global_index, i, acc =>
    occurence_scan rest global_index (i + 1)
      (if x = global_index then some i else acc)

/-- `ecl_file_map_iget_occurence`: look up the keyword at `global_index`
(`vector_iget_const`, aborts out of range), fetch its header's index vector
(`hash_get`, aborts when absent) and reverse-search the vector for
`global_index`; `util_abort` when the position is not found (`none`). -/
def ecl_file_map_iget_occurence (file_map : ecl_file_map) (global_index : Nat) :
    Option Nat :=
  match file_map.kw_list[global_index]? with
  | none => none
  | some file_kw =>
    match assocLookup file_map.kw_index file_kw.header with
    | none => none
    | some index_vector => occurence_scan index_vector global_index 0 none

/-- The `while (true)` collection loop of `ecl_file_map_alloc_blockmap`,
applied to the part of `kw_list` after the starting position: keep adding
keywords until the end of the list or until the next keyword whose header
equals the delimiter, which is excluded. -/
def blockmap_rest (header : String) : List ecl_file_kw → List ecl_file_kw
  | [] => []
  | file_kw :: rest =>
    if file_kw.header = header then []
    else file_kw :: blockmap_rest header rest

/-- `ecl_file_map_alloc_blockmap`.  Outer `none` models a `util_abort`
inside `int_vector_iget` or `vector_iget` (never reached on a map whose
index has been built); `some none` is the `NULL` return for a block which
is not present; `some (some bm)` is a freshly indexed non-owning block
map. -/
def ecl_file_map_alloc_blockmap (file_map : ecl_file_map) (header : String)
    (occurence : Nat) : Option (Option ecl_file_map) :=
  if occurence < ecl_file_map_get_num_named_kw file_map header then
    if ecl_file_map_has_kw file_map header then
      match ecl_file_map_get_global_index file_map header occurence with
      | none => none
      | some kw_index =>
        match file_map.kw_list[kw_index]? with
        | none => none
        | some file_kw =>
          some (some (ecl_file_map_make_index
            { ecl_file_map_alloc false with
                kw_list := file_kw :: blockmap_rest header (file_map.kw_list.drop (kw_index + 1)) }))
    else
      some (some (ecl_file_map_make_index (ecl_file_map_alloc false)))
  else
    some none

/-- `ecl_file_struct`: the fortio handle itself is not part of the model;
`map_list` is the storage container that owns the global map and every
derived block map. -/
structure ecl_file where
  global_map : ecl_file_map
  active_map : ecl_file_map
  map_list : List ecl_file_map
deriving DecidableEq

/-- The scan loop of `ecl_file_scan`: `current_offset` is the stream
position saved by `fortio_ftell` before `ecl_kw_fread_header`; a
successful header read creates the handle at `current_offset` and
`ecl_file_kw_fskip_data` advances the cursor past the payload; the first
failed header read breaks the loop. -/
def ecl_file_scan_loop : List (Option raw_record) → Nat → List ecl_file_kw
  | [], _ => []
  | none :: _, _ => []
  | some r :: rest, current_offset =>
    { header := r.name, file_offset := current_offset } ::
      ecl_file_scan_loop rest (current_offset + r.header_size + r.payload_size)

/-- `ecl_file_scan`: seek to `0`, run the scan loop into the owning global
map, then `ecl_file_map_make_index`. -/
def ecl_file_scan (stream : List (Option raw_record)) : ecl_file_map :=
  ecl_file_map_make_index
    { ecl_file_map_alloc true with kw_list := ecl_file_scan_loop stream 0 }

/-- `ecl_file_open`: allocate the empty instance, build the global map by
scanning, register it in `map_list` and select it as the active map. -/
def ecl_file_open (stream : List (Option raw_record)) : ecl_file :=
  let global_map := ecl_file_scan stream
  { global_map := global_map, active_map := global_map, map_list := [global_map] }

/-- `ecl_file_get_blockmap`: derive a block map from `global_map` (never
from `active_map`); when the block exists, register it in `map_list`.
Outer `none` again models an abort inside the extractor. -/
def ecl_file_get_blockmap (f : ecl_file) (kw : String) (occurence : Nat) :
    Option (Option ecl_file_map × ecl_file) :=
  match ecl_file_map_alloc_blockmap f.global_map kw occurence with
  | none => none
  | some none => some (none, f)
  | some (some blockmap) =>
      some (some blockmap, { f with map_list := f.map_list ++ [blockmap] })

/-- `ecl_file_select_block`: on success set `active_map` to the new block
map and return `true`; when the block is not present return `false`. -/
def ecl_file_select_block (f : ecl_file) (kw : String) (occurence : Nat) :
    Option (Bool × ecl_file) :=
  match ecl_file_get_blockmap f kw occurence with
  | none => none
  | some (none, f) => some (false, f)
  | some (some blockmap, f) => some (true, { f with active_map := blockmap })

/-- `ecl_file_open_block`: open the file, try to select the block, and —
as the C code is written — return `NULL` on every path (the opened
instance is closed when selection fails, and discarded when it
succeeds). -/
def ecl_file_open_block (stream : List (Option raw_record)) (kw : String)
    (occurence : Nat) : Option (Option ecl_file) :=
  let file := ecl_file_open stream
  match ecl_file_select_block file kw occurence with
  | none => none
  | some _ => some none

/-- `ecl_file_replace_kw`: the entire body of the C function is commented
out, so the call returns with no effect on the instance. -/
def ecl_file_replace_kw {α : Type} (f : ecl_file) (old_kw new_kw : α)
    (insert_copy : Bool) : ecl_file :=
  f

/-! ## Specification-side descriptions

The following definitions restate, independently of the loop structure of
the C code, the quantities the specification talks about: the list of
positions carrying a given name, the list of names in first-occurrence
order, and byte offsets of records inside the modelled stream. -/

/-- The strictly increasing list of the positions `p ≥ i` (counting from
`i` at the head of `l`) whose keyword header equals `k`. -/
def positionsOf (k : String) : List ecl_file_kw → Nat → List Nat
  | [], _ => []
  | file_kw :: rest, i =>
    if file_kw.header = k then i :: positionsOf k rest (i + 1)
    else positionsOf k rest (i + 1)

/-- Helper for `firstOcc`: the names of `l` not in `seen`, each listed once,
in order of first occurrence. -/
def firstOccAux : List String → List String → List String
  | [], _ => []
  | h :: rest, seen =>
    if h ∈ seen then firstOccAux rest seen
    else h :: firstOccAux rest (seen ++ [h])

/-- The names of `l`, each listed once, in first-occurrence order. -/
def firstOcc (l : List String) : List String :=
  firstOccAux l []

/-- Byte offset at which record `i` of the stream starts (the position of
its header). -/
def record_start_offset : List raw_record → Nat → Nat
  | [], _ => 0
  | _ :: _, 0 => 0
  | r :: rest, i + 1 => r.header_size + r.payload_size + record_start_offset rest i

/-- Byte offset of the payload of record `i` of the stream: the position
immediately after that record's header. -/
def payload_offset (records : List raw_record) (i : Nat) : Nat :=
  record_start_offset records i +
    (match records[i]? with
     | some r => r.header_size
     | none => 0)

/-! ## Association-list lemmas -/

theorem assocLookup_append (a b : List (String × List Nat)) (k : String) :
    assocLookup (a ++ b) k =
      match assocLookup a k with
      | some v => some v
      | none => assocLookup b k := by
  induction a with
  | nil => simp [assocLookup]
  | cons p rest ih =>
    obtain ⟨k1, v1⟩ := p
    by_cases h : k1 = k <;> simp [assocLookup, h, ih]

theorem assocLookup_assocAppend (idx : List (String × List Nat)) (key : String)
    (i : Nat) (k : String) :
    assocLookup (assocAppend idx key i) k =
      if k = key then (assocLookup idx key).map (fun v => v ++ [i])
      else assocLookup idx k := by
  induction idx with
  | nil => by_cases h : k = key <;> simp [assocLookup, assocAppend, h]
  | cons p rest ih =>
    obtain ⟨k1, v1⟩ := p
    by_cases h1 : k1 = key
    · subst h1
      by_cases h2 : k1 = k
      · subst h2
        simp [assocAppend, assocLookup]
      · simp [assocAppend, assocLookup, h2, Ne.symm h2]
    · by_cases h2 : k1 = k
      · subst h2
        simp [assocAppend, assocLookup, h1]
      · simp [assocAppend, assocLookup, h1, h2, ih]

theorem assocKeys_assocAppend (idx : List (String × List Nat)) (key : String) (i : Nat) :
    (assocAppend idx key i).map Prod.fst = idx.map Prod.fst := by
  induction idx with
  | nil => rfl
  | cons p rest ih =>
    obtain ⟨k1, v1⟩ := p
    by_cases h : k1 = key <;> simp [assocAppend, h, ih]

theorem assocLookup_isSome_iff (idx : List (String × List Nat)) (k : String) :
    (assocLookup idx k).isSome ↔ k ∈ idx.map Prod.fst := by
  induction idx with
  | nil => simp [assocLookup]
  | cons p rest ih =>
    obtain ⟨k1, v1⟩ := p
    by_cases h : k1 = k
    · subst h
      simp [assocLookup]
    · simp only [assocLookup, if_neg h, List.map_cons, List.mem_cons]
      rw [ih]
      constructor
      · intro hm
        exact Or.inr hm
      · rintro (h1 | h1)
        · exact absurd h1.symm h
        · exact h1

/-! ## positionsOf lemmas -/

theorem le_of_mem_positionsOf (k : String) (l : List ecl_file_kw) :
    ∀ i x, x ∈ positionsOf k l i → i ≤ x := by
  induction l with
  | nil => simp [positionsOf]
  | cons f rest ih =>
    intro i x hx
    simp only [positionsOf] at hx
    by_cases h : f.header = k
    · rw [if_pos h] at hx
      rcases List.mem_cons.mp hx with h1 | h1
      · omega
      · have := ih (i + 1) x h1; omega
    · rw [if_neg h] at hx
      have := ih (i + 1) x hx; omega

theorem pairwise_positionsOf (k : String) (l : List ecl_file_kw) :
    ∀ i, List.Pairwise (fun a b => a < b) (positionsOf k l i) := by
  induction l with
  | nil => intro i; simp [positionsOf]
  | cons f rest ih =>
    intro i
    simp only [positionsOf]
    split
    · refine List.pairwise_cons.mpr ⟨?_, ih (i + 1)⟩
      intro x hx
      have := le_of_mem_positionsOf k rest (i + 1) x hx
      omega
    · exact ih (i + 1)

theorem mem_positionsOf (k : String) (l : List ecl_file_kw) :
    ∀ i x, x ∈ positionsOf k l i ↔
      i ≤ x ∧ ∃ f, l[x - i]? = some f ∧ f.header = k := by
  induction l with
  | nil => intro i x; simp [positionsOf]
  | cons g rest ih =>
    intro i x
    have hsub : i + 1 ≤ x → x - i = (x - (i + 1)) + 1 := by omega
    simp only [positionsOf]
    by_cases h : g.header = k
    · rw [if_pos h]
      constructor
      · intro hx
        rcases List.mem_cons.mp hx with h1 | h1
        · subst h1
          exact ⟨le_refl _, g, by simp, h⟩
        · obtain ⟨hle, f, hf, hfk⟩ := (ih (i + 1) x).mp h1
          refine ⟨by omega, f, ?_, hfk⟩
          rw [hsub hle, List.getElem?_cons_succ]
          exact hf
      · rintro ⟨hle, f, hf, hfk⟩
        by_cases hxi : x = i
        · subst hxi
          exact List.mem_cons_self _ _
        · have hgt : i + 1 ≤ x := by omega
          apply List.mem_cons_of_mem
          apply (ih (i + 1) x).mpr
          refine ⟨hgt, f, ?_, hfk⟩
          rw [hsub hgt, List.getElem?_cons_succ] at hf
          exact hf
    · rw [if_neg h]
      constructor
      · intro hx
        obtain ⟨hle, f, hf, hfk⟩ := (ih (i + 1) x).mp hx
        refine ⟨by omega, f, ?_, hfk⟩
        rw [hsub hle, List.getElem?_cons_succ]
        exact hf
      · rintro ⟨hle, f, hf, hfk⟩
        by_cases hxi : x = i
        · subst hxi
          rw [Nat.sub_self, List.getElem?_cons_zero] at hf
          obtain rfl : g = f := Option.some.inj hf
          exact absurd hfk h
        · have hgt : i + 1 ≤ x := by omega
          apply (ih (i + 1) x).mpr
          refine ⟨hgt, f, ?_, hfk⟩
          rw [hsub hgt, List.getElem?_cons_succ] at hf
          exact hf

theorem positionsOf_of_not_mem (k : String) (l : List ecl_file_kw)
    (h : k ∉ l.map (fun f => f.header)) : ∀ i, positionsOf k l i = [] := by
  induction l with
  | nil => intro i; rfl
  | cons g rest ih =>
    intro i
    simp only [List.map_cons, List.mem_cons] at h
    push_neg at h
    simp only [positionsOf, if_neg (fun hh : g.header = k => h.1 hh.symm)]
    exact ih h.2 (i + 1)

/-! ## Characterization of the index built by ecl_file_map_make_index -/

theorem make_index_go_some (l : List ecl_file_kw) :
    ∀ i idx distinct k v, assocLookup idx k = some v →
      assocLookup (ecl_file_map_make_index_go l i idx distinct).1 k =
        some (v ++ positionsOf k l i) := by
  induction l with
  | nil =>
    intro i idx distinct k v hv
    simpa [ecl_file_map_make_index_go, positionsOf] using hv
  | cons g rest ih =>
    intro i idx distinct k v hv
    simp only [ecl_file_map_make_index_go]
    by_cases hg : (assocLookup idx g.header).isSome
    · rw [if_pos hg]
      by_cases hk : k = g.header
      · have step : assocLookup (assocAppend idx g.header i) k = some (v ++ [i]) := by
          rw [assocLookup_assocAppend, if_pos hk, ← hk, hv]
          rfl
        rw [ih (i + 1) _ distinct k (v ++ [i]) step]
        simp only [positionsOf, if_pos hk.symm]
        rw [List.append_assoc]
        rfl
      · have step : assocLookup (assocAppend idx g.header i) k = some v := by
          rw [assocLookup_assocAppend, if_neg hk]
          exact hv
        rw [ih (i + 1) _ distinct k v step]
        simp only [positionsOf, if_neg (fun h : g.header = k => hk h.symm)]
    · rw [if_neg hg]
      have hk : ¬ (k = g.header) := by
        intro h
        rw [h] at hv
        rw [hv] at hg
        exact hg rfl
      have step : assocLookup (assocAppend (idx ++ [(g.header, [])]) g.header i) k = some v := by
        rw [assocLookup_assocAppend, if_neg hk, assocLookup_append, hv]
      rw [ih (i + 1) _ _ k v step]
      simp only [positionsOf, if_neg (fun h : g.header = k => hk h.symm)]

theorem make_index_go_none (l : List ecl_file_kw) :
    ∀ i idx distinct k, assocLookup idx k = none →
      assocLookup (ecl_file_map_make_index_go l i idx distinct).1 k =
        if k ∈ l.map (fun f => f.header) then some (positionsOf k l i) else none := by
  induction l with
  | nil =>
    intro i idx distinct k hv
    simpa [ecl_file_map_make_index_go] using hv
  | cons g rest ih =>
    intro i idx distinct k hv
    simp only [ecl_file_map_make_index_go]
    by_cases hg : (assocLookup idx g.header).isSome
    · have hk : ¬ (k = g.header) := by
        intro h
        rw [h] at hv
        rw [hv] at hg
        exact Bool.noConfusion hg
      have hmm : k ∈ (g :: rest).map (fun f => f.header) ↔
          k ∈ rest.map (fun f => f.header) := by
        simp only [List.map_cons, List.mem_cons]
        constructor
        · rintro (h1 | h1)
          · exact absurd h1 hk
          · exact h1
        · exact Or.inr
      rw [if_pos hg]
      have step : assocLookup (assocAppend idx g.header i) k = none := by
        rw [assocLookup_assocAppend, if_neg hk]
        exact hv
      rw [ih (i + 1) _ distinct k step]
      by_cases hmem : k ∈ rest.map (fun f => f.header)
      · rw [if_pos hmem, if_pos (hmm.mpr hmem)]
        simp only [positionsOf, if_neg (fun h : g.header = k => hk h.symm)]
      · rw [if_neg hmem, if_neg (fun h => hmem (hmm.mp h))]
    · rw [if_neg hg]
      have hvg : assocLookup idx g.header = none := Option.not_isSome_iff_eq_none.mp hg
      by_cases hk : k = g.header
      · have step : assocLookup (assocAppend (idx ++ [(g.header, [])]) g.header i) k
            = some [i] := by
          rw [assocLookup_assocAppend, if_pos hk, assocLookup_append, hvg]
          simp [assocLookup]
        rw [make_index_go_some rest (i + 1) _ _ k [i] step]
        rw [if_pos (by simp only [List.map_cons, List.mem_cons]; exact Or.inl hk)]
        simp only [positionsOf, if_pos hk.symm]
        rfl
      · have hmm : k ∈ (g :: rest).map (fun f => f.header) ↔
            k ∈ rest.map (fun f => f.header) := by
          simp only [List.map_cons, List.mem_cons]
          constructor
          · rintro (h1 | h1)
            · exact absurd h1 hk
            · exact h1
          · exact Or.inr
        have step : assocLookup (assocAppend (idx ++ [(g.header, [])]) g.header i) k
            = none := by
          rw [assocLookup_assocAppend, if_neg hk, assocLookup_append, hv]
          show assocLookup [(g.header, [])] k = none
          simp only [assocLookup]
          rw [if_neg (fun h : g.header = k => hk h.symm)]
        rw [ih (i + 1) _ _ k step]
        by_cases hmem : k ∈ rest.map (fun f => f.header)
        · rw [if_pos hmem, if_pos (hmm.mpr hmem)]
          simp only [positionsOf, if_neg (fun h : g.header = k => hk h.symm)]
        · rw [if_neg hmem, if_neg (fun h => hmem (hmm.mp h))]

theorem make_index_go_snd (l : List ecl_file_kw) :
    ∀ i idx distinct,
      (ecl_file_map_make_index_go l i idx distinct).2 =
        distinct ++ firstOccAux (l.map (fun f => f.header)) (idx.map Prod.fst) := by
  induction l with
  | nil => intro i idx distinct; simp [ecl_file_map_make_index_go, firstOccAux]
  | cons g rest ih =>
    intro i idx distinct
    simp only [ecl_file_map_make_index_go, List.map_cons, firstOccAux]
    by_cases hg : (assocLookup idx g.header).isSome
    · have hmem : g.header ∈ idx.map Prod.fst := (assocLookup_isSome_iff idx g.header).mp hg
      rw [if_pos hg, ih, if_pos hmem, assocKeys_assocAppend]
    · have hmem : g.header ∉ idx.map Prod.fst := by
        intro hm
        exact hg ((assocLookup_isSome_iff idx g.header).mpr hm)
      rw [if_neg hg, ih, if_neg hmem, assocKeys_assocAppend]
      simp [List.append_assoc]

theorem make_index_kw_list (m : ecl_file_map) :
    (ecl_file_map_make_index m).kw_list = m.kw_list := rfl

theorem make_index_owner (m : ecl_file_map) :
    (ecl_file_map_make_index m).owner = m.owner := rfl

theorem assocLookup_make_index (m : ecl_file_map) (k : String) :
    assocLookup (ecl_file_map_make_index m).kw_index k =
      if k ∈ m.kw_list.map (fun f => f.header) then some (positionsOf k m.kw_list 0)
      else none := by
  have h := make_index_go_none m.kw_list 0 [] [] k rfl
  simpa [ecl_file_map_make_index] using h

theorem distinct_kw_make_index (m : ecl_file_map) :
    (ecl_file_map_make_index m).distinct_kw =
      firstOcc (m.kw_list.map (fun f => f.header)) := by
  have h := make_index_go_snd m.kw_list 0 [] []
  simpa [ecl_file_map_make_index, firstOcc] using h

theorem mem_firstOccAux (l : List String) :
    ∀ seen k, k ∈ firstOccAux l seen ↔ k ∈ l ∧ k ∉ seen := by
  induction l with
  | nil => intro seen k; simp [firstOccAux]
  | cons h rest ih =>
    intro seen k
    simp only [firstOccAux]
    by_cases hs : h ∈ seen
    · rw [if_pos hs, ih]
      constructor
      · rintro ⟨h1, h2⟩
        exact ⟨List.mem_cons_of_mem _ h1, h2⟩
      · rintro ⟨h1, h2⟩
        rcases List.mem_cons.mp h1 with h3 | h3
        · subst h3
          exact absurd hs h2
        · exact ⟨h3, h2⟩
    · rw [if_neg hs]
      rw [List.mem_cons, ih (seen ++ [h]) k]
      constructor
      · rintro (h1 | ⟨h1, h2⟩)
        · subst h1
          exact ⟨List.mem_cons_self _ _, hs⟩
        · have h3 : k ∉ seen := fun hm => h2 (List.mem_append_left _ hm)
          exact ⟨List.mem_cons_of_mem _ h1, h3⟩
      · rintro ⟨h1, h2⟩
        by_cases hk : k = h
        · exact Or.inl hk
        · rcases List.mem_cons.mp h1 with h3 | h3
          · exact absurd h3 hk
          · refine Or.inr ⟨h3, ?_⟩
            intro hm
            rcases List.mem_append.mp hm with h4 | h4
            · exact h2 h4
            · exact hk (List.mem_singleton.mp h4)

theorem get_num_named_kw_make_index (m : ecl_file_map) (k : String) :
    ecl_file_map_get_num_named_kw (ecl_file_map_make_index m) k =
      (positionsOf k m.kw_list 0).length := by
  unfold ecl_file_map_get_num_named_kw
  rw [assocLookup_make_index]
  split_ifs with h
  · rfl
  · rw [positionsOf_of_not_mem k m.kw_list h 0]
    rfl

/-! ## blockmap_rest lemmas -/

theorem blockmap_rest_take (h : String) (l : List ecl_file_kw) :
    l.take (blockmap_rest h l).length = blockmap_rest h l := by
  induction l with
  | nil => rfl
  | cons f rest ih =>
    simp only [blockmap_rest]
    split
    · rfl
    · simp only [List.length_cons, List.take_succ_cons, ih]

theorem blockmap_rest_length_le (h : String) (l : List ecl_file_kw) :
    (blockmap_rest h l).length ≤ l.length := by
  induction l with
  | nil => exact le_refl _
  | cons f rest ih =>
    simp only [blockmap_rest]
    split
    · simp
    · simpa using ih

theorem blockmap_rest_inside (h : String) (l : List ecl_file_kw) :
    ∀ j, j < (blockmap_rest h l).length →
      ∃ f, l[j]? = some f ∧ ¬ (f.header = h) := by
  induction l with
  | nil => intro j hj; simp [blockmap_rest] at hj
  | cons g rest ih =>
    intro j hj
    simp only [blockmap_rest] at hj
    by_cases hg : g.header = h
    · rw [if_pos hg] at hj
      simp at hj
    · rw [if_neg hg] at hj
      cases j with
      | zero => exact ⟨g, by simp, hg⟩
      | succ j =>
        obtain ⟨f, h1, h2⟩ := ih j (by simpa using hj)
        exact ⟨f, by simpa using h1, h2⟩

theorem blockmap_rest_boundary (h : String) (l : List ecl_file_kw) :
    (blockmap_rest h l).length = l.length ∨
      ∃ f, l[(blockmap_rest h l).length]? = some f ∧ f.header = h := by
  induction l with
  | nil => left; rfl
  | cons g rest ih =>
    simp only [blockmap_rest]
    by_cases hg : g.header = h
    · right
      rw [if_pos hg]
      exact ⟨g, by simp, hg⟩
    · rw [if_neg hg]
      rcases ih with h1 | ⟨f, h1, h2⟩
      · left
        simp [h1]
      · right
        exact ⟨f, by simpa using h1, h2⟩

/-! ## occurence_scan lemmas -/

theorem occurence_scan_of_not_mem (v : List Nat) (gi : Nat) (h : gi ∉ v) :
    ∀ j acc, occurence_scan v gi j acc = acc := by
  induction v with
  | nil => intro j acc; rfl
  | cons x rest ih =>
    intro j acc
    have hx : ¬ (x = gi) := fun hh => h (hh ▸ List.mem_cons_self _ _)
    have hr : gi ∉ rest := fun hh => h (List.mem_cons_of_mem _ hh)
    simp only [occurence_scan, if_neg hx]
    exact ih hr (j + 1) acc

theorem occurence_scan_mem (v : List Nat) (gi : Nat) (h : gi ∈ v) :
    ∀ j acc, ∃ kk, occurence_scan v gi j acc = some (j + kk) ∧ v[kk]? = some gi := by
  induction v with
  | nil => exact absurd h (List.not_mem_nil _)
  | cons x rest ih =>
    intro j acc
    by_cases hr : gi ∈ rest
    · obtain ⟨kk, h1, h2⟩ := ih hr (j + 1) (if x = gi then some j else acc)
      refine ⟨kk + 1, ?_, by simpa using h2⟩
      simp only [occurence_scan]
      rw [h1]
      congr 1
      omega
    · have hx : x = gi := by
        rcases List.mem_cons.mp h with h1 | h1
        · exact h1.symm
        · exact absurd h1 hr
      refine ⟨0, ?_, by simp [hx]⟩
      simp only [occurence_scan, if_pos hx]
      rw [occurence_scan_of_not_mem rest gi hr (j + 1) (some j)]
      rfl

/-! ## Behaviour of ecl_file_map_alloc_blockmap on an indexed map -/

theorem alloc_blockmap_of_le (m₀ : ecl_file_map) (delim : String) (occ : Nat)
    (h : ecl_file_map_get_num_named_kw (ecl_file_map_make_index m₀) delim ≤ occ) :
    ecl_file_map_alloc_blockmap (ecl_file_map_make_index m₀) delim occ = some none := by
  unfold ecl_file_map_alloc_blockmap
  rw [if_neg (by omega)]

theorem alloc_blockmap_of_lt (m₀ : ecl_file_map) (delim : String) (occ : Nat)
    (h : occ < ecl_file_map_get_num_named_kw (ecl_file_map_make_index m₀) delim) :
    ∃ bm start fkw,
      ecl_file_map_alloc_blockmap (ecl_file_map_make_index m₀) delim occ
        = some (some bm) ∧
      ecl_file_map_get_global_index (ecl_file_map_make_index m₀) delim occ
        = some start ∧
      (positionsOf delim m₀.kw_list 0)[occ]? = some start ∧
      m₀.kw_list[start]? = some fkw ∧ fkw.header = delim ∧
      bm = ecl_file_map_make_index
        { ecl_file_map_alloc false with
            kw_list := fkw :: blockmap_rest delim (m₀.kw_list.drop (start + 1)) } := by
  have hcount := get_num_named_kw_make_index m₀ delim
  have hlen : occ < (positionsOf delim m₀.kw_list 0).length := by rw [← hcount]; exact h
  have hmem : delim ∈ m₀.kw_list.map (fun f => f.header) := by
    by_contra hnm
    rw [positionsOf_of_not_mem delim m₀.kw_list hnm 0] at hlen
    simp at hlen
  have hlook : assocLookup (ecl_file_map_make_index m₀).kw_index delim
      = some (positionsOf delim m₀.kw_list 0) := by
    rw [assocLookup_make_index, if_pos hmem]
  have hstart : (positionsOf delim m₀.kw_list 0)[occ]?
      = some ((positionsOf delim m₀.kw_list 0)[occ]) := List.getElem?_eq_getElem hlen
  have hstartmem : (positionsOf delim m₀.kw_list 0)[occ] ∈ positionsOf delim m₀.kw_list 0 :=
    List.getElem_mem hlen
  obtain ⟨-, fkw, hfk, hfkh⟩ :=
    (mem_positionsOf delim m₀.kw_list 0 ((positionsOf delim m₀.kw_list 0)[occ])).mp hstartmem
  rw [Nat.sub_zero] at hfk
  have hgi : ecl_file_map_get_global_index (ecl_file_map_make_index m₀) delim occ
      = some ((positionsOf delim m₀.kw_list 0)[occ]) := by
    unfold ecl_file_map_get_global_index
    rw [hlook]
    exact hstart
  have hhas : ecl_file_map_has_kw (ecl_file_map_make_index m₀) delim = true := by
    unfold ecl_file_map_has_kw
    rw [hlook]
    rfl
  refine ⟨_, (positionsOf delim m₀.kw_list 0)[occ], fkw, ?_, hgi, hstart, hfk, hfkh, rfl⟩
  unfold ecl_file_map_alloc_blockmap
  rw [if_pos h, hhas]
  simp only [if_true, hgi, make_index_kw_list, hfk]

/-! ## Scan lemmas -/

theorem scan_loop_stop (good : List raw_record) :
    ∀ off rest, ecl_file_scan_loop (good.map some ++ none :: rest) off
      = ecl_file_scan_loop (good.map some) off := by
  induction good with
  | nil => intro off rest; rfl
  | cons r grest ih =>
    intro off rest
    simp only [List.map_cons, List.cons_append, ecl_file_scan_loop]
    exact congrArg _ (ih _ rest)

theorem scan_loop_names (records : List raw_record) :
    ∀ off, (ecl_file_scan_loop (records.map some) off).map (fun f => f.header)
      = records.map (fun r => r.name) := by
  induction records with
  | nil => intro off; rfl
  | cons r rest ih =>
    intro off
    simp only [List.map_cons, ecl_file_scan_loop]
    rw [ih]

theorem scan_loop_offset (records : List raw_record) :
    ∀ off i f, (ecl_file_scan_loop (records.map some) off)[i]? = some f →
      f.file_offset = off + record_start_offset records i := by
  induction records with
  | nil => intro off i f hf; simp [ecl_file_scan_loop] at hf
  | cons r rest ih =>
    intro off i f hf
    cases i with
    | zero =>
      simp only [List.map_cons, ecl_file_scan_loop, List.getElem?_cons_zero] at hf
      obtain rfl : ({ header := r.name, file_offset := off } : ecl_file_kw) = f :=
        Option.some.inj hf
      simp [record_start_offset]
    | succ i =>
      simp only [List.map_cons, ecl_file_scan_loop, List.getElem?_cons_succ] at hf
      have hoff := ih (off + r.header_size + r.payload_size) i f hf
      rw [hoff]
      simp only [record_start_offset]
      omega

/-! ## File-level helpers -/

/-- The owning global map as filled by the scan loop, before
`ecl_file_map_make_index` runs on it. -/
def scan_pre (stream : List (Option raw_record)) : ecl_file_map :=
  { ecl_file_map_alloc true with kw_list := ecl_file_scan_loop stream 0 }

theorem open_global_map (stream : List (Option raw_record)) :
    (ecl_file_open stream).global_map = ecl_file_map_make_index (scan_pre stream) := rfl

theorem select_block_open_spec (stream : List (Option raw_record)) (kw : String)
    (occ : Nat) :
    ∃ r, ecl_file_select_block (ecl_file_open stream) kw occ = some r ∧
      ((r.1 = true ∧ ∃ bm,
          ecl_file_map_alloc_blockmap (ecl_file_open stream).global_map kw occ
            = some (some bm) ∧
          r.2.active_map = bm ∧
          r.2.map_list = (ecl_file_open stream).map_list ++ [bm] ∧
          r.2.global_map = (ecl_file_open stream).global_map) ∨
       (r.1 = false ∧ r.2 = ecl_file_open stream)) := by
  by_cases h : occ < ecl_file_map_get_num_named_kw (ecl_file_open stream).global_map kw
  · obtain ⟨bm, start, fkw, halloc, -, -, -, -, -⟩ :=
      alloc_blockmap_of_lt (scan_pre stream) kw occ h
    refine ⟨(true, { ecl_file_open stream with
        active_map := bm,
        map_list := (ecl_file_open stream).map_list ++ [bm] }), ?_,
      Or.inl ⟨rfl, bm, halloc, rfl, rfl, rfl⟩⟩
    unfold ecl_file_select_block ecl_file_get_blockmap
    rw [open_global_map, halloc]
    rfl
  · have halloc := alloc_blockmap_of_le (scan_pre stream) kw occ (Nat.le_of_not_lt h)
    refine ⟨(false, ecl_file_open stream), ?_, Or.inr ⟨rfl, rfl⟩⟩
    unfold ecl_file_select_block ecl_file_get_blockmap
    rw [open_global_map, halloc]

theorem get_blockmap_global_only (f g : ecl_file) (kw : String) (occ : Nat)
    (h : f.global_map = g.global_map) :
    (ecl_file_get_blockmap f kw occ).map (fun x => x.1)
      = (ecl_file_get_blockmap g kw occ).map (fun x => x.1) := by
  unfold ecl_file_get_blockmap
  rw [h]
  cases ecl_file_map_alloc_blockmap g.global_map kw occ with
  | none => rfl
  | some o =>
    cases o with
    | none => rfl
    | some bm => rfl

theorem select_block_preserves_global (f : ecl_file) (kw : String) (occ : Nat)
    (r : Bool × ecl_file) (h : ecl_file_select_block f kw occ = some r) :
    r.2.global_map = f.global_map := by
  unfold ecl_file_select_block ecl_file_get_blockmap at h
  cases halloc : ecl_file_map_alloc_blockmap f.global_map kw occ with
  | none =>
    rw [halloc] at h
    exact Option.noConfusion h
  | some o =>
    cases o with
    | none =>
      rw [halloc] at h
      obtain rfl : ((false, f) : Bool × ecl_file) = r := Option.some.inj h
      rfl
    | some bm =>
      rw [halloc] at h
      obtain rfl : ((true, { f with
          active_map := bm, map_list := f.map_list ++ [bm] }) : Bool × ecl_file) = r :=
        Option.some.inj h
      rfl

/-! ## The claims -/

/-- C1: after `ecl_file_map_make_index` runs, for every name `k` the
position list stored under `k` is strictly increasing and contains exactly
the positions `j` whose handle at `kw_list[j]` has header `k`; the key set
of `kw_index` coincides with the set of names in `distinct_kw`; and
`distinct_kw` lists the names of `kw_list` in first-occurrence order. -/
theorem spec_C1_index_consistency (m₀ : ecl_file_map) (k : String) :
    List.Pairwise (fun a b => a < b)
      ((assocLookup (ecl_file_map_make_index m₀).kw_index k).getD []) ∧
    (∀ j, j ∈ (assocLookup (ecl_file_map_make_index m₀).kw_index k).getD [] ↔
      ∃ f, m₀.kw_list[j]? = some f ∧ f.header = k) ∧
    ((assocLookup (ecl_file_map_make_index m₀).kw_index k).isSome ↔
      k ∈ (ecl_file_map_make_index m₀).distinct_kw) ∧
    (ecl_file_map_make_index m₀).distinct_kw
      = firstOcc (m₀.kw_list.map (fun f => f.header)) := by
  have hlook := assocLookup_make_index m₀ k
  have hdis := distinct_kw_make_index m₀
  refine ⟨?_, ?_, ?_, hdis⟩
  · rw [hlook]
    split_ifs with h
    · simpa using pairwise_positionsOf k m₀.kw_list 0
    · simp
  · intro j
    rw [hlook]
    split_ifs with h
    · simp only [Option.getD_some]
      rw [mem_positionsOf]
      constructor
      · rintro ⟨-, f, hf, hfk⟩
        rw [Nat.sub_zero] at hf
        exact ⟨f, hf, hfk⟩
      · rintro ⟨f, hf, hfk⟩
        exact ⟨Nat.zero_le _, f, by rwa [Nat.sub_zero], hfk⟩
    · simp only [Option.getD_none]
      constructor
      · intro hj
        exact absurd hj (List.not_mem_nil _)
      · rintro ⟨f, hf, hfk⟩
        exact absurd (List.mem_map.mpr ⟨f, List.getElem?_mem hf, hfk⟩) h
  · rw [hlook, hdis]
    show _ ↔ k ∈ firstOccAux (m₀.kw_list.map (fun f => f.header)) []
    rw [mem_firstOccAux]
    constructor
    · intro hs
      split_ifs at hs with h
      · exact ⟨h, List.not_mem_nil k⟩
      · exact absurd hs (by simp)
    · rintro ⟨h1, -⟩
      rw [if_pos h1]
      rfl

/-- C3: block extraction returns the normal negative result `NULL` —
never an abort — exactly when the number of occurrences of the delimiter
is at most the requested occurrence, both at the map level
(`ecl_file_map_alloc_blockmap` on an indexed map) and through
`ecl_file_get_blockmap` on an opened file; in particular a name that
never occurs (count `0`) yields "not found" for every requested
occurrence. -/
theorem spec_C3_block_not_found (m₀ : ecl_file_map) (delim : String) (occ : Nat) :
    (ecl_file_map_alloc_blockmap (ecl_file_map_make_index m₀) delim occ = some none ↔
      ecl_file_map_get_num_named_kw (ecl_file_map_make_index m₀) delim ≤ occ) ∧
    (∀ stream, ∃ r, ecl_file_get_blockmap (ecl_file_open stream) delim occ = some r ∧
      (r.1 = none ↔
        ecl_file_map_get_num_named_kw (ecl_file_open stream).global_map delim ≤ occ)) := by
  constructor
  · constructor
    · intro hnull
      by_contra hlt
      push_neg at hlt
      obtain ⟨bm, start, fkw, halloc, -⟩ := alloc_blockmap_of_lt m₀ delim occ hlt
      rw [halloc] at hnull
      exact Option.noConfusion (Option.some.inj hnull)
    · exact alloc_blockmap_of_le m₀ delim occ
  · intro stream
    by_cases h : occ < ecl_file_map_get_num_named_kw (ecl_file_open stream).global_map delim
    · obtain ⟨bm, start, fkw, halloc, -⟩ :=
        alloc_blockmap_of_lt (scan_pre stream) delim occ h
      refine ⟨(some bm, { ecl_file_open stream with
          map_list := (ecl_file_open stream).map_list ++ [bm] }), ?_, ?_⟩
      · unfold ecl_file_get_blockmap
        rw [open_global_map, halloc]
        rfl
      · constructor
        · intro hh
          exact Option.noConfusion hh
        · intro hh
          omega
    · have halloc := alloc_blockmap_of_le (scan_pre stream) delim occ (Nat.le_of_not_lt h)
      refine ⟨(none, ecl_file_open stream), ?_, ?_⟩
      · unfold ecl_file_get_blockmap
        rw [open_global_map, halloc]
      · simp [Nat.le_of_not_lt h]

/-- C10: `ecl_file_replace_kw` returns normally and leaves the whole
instance — sequence, name index, distinct-name list, active map and map
registry — exactly as it was: its body is entirely commented out in the C
source. -/
theorem spec_C10_replace_kw_noop (α : Type) (f : ecl_file) (old_kw new_kw : α)
    (insert_copy : Bool) :
    ecl_file_replace_kw f old_kw new_kw insert_copy = f ∧
    (ecl_file_replace_kw f old_kw new_kw insert_copy).global_map.kw_list
      = f.global_map.kw_list ∧
    (ecl_file_replace_kw f old_kw new_kw insert_copy).global_map.kw_index
      = f.global_map.kw_index ∧
    (ecl_file_replace_kw f old_kw new_kw insert_copy).global_map.distinct_kw
      = f.global_map.distinct_kw ∧
    (ecl_file_replace_kw f old_kw new_kw insert_copy).active_map = f.active_map ∧
    (ecl_file_replace_kw f old_kw new_kw insert_copy).map_list = f.map_list :=
  ⟨rfl, rfl, rfl, rfl, rfl, rfl⟩

/-- C2: when the delimiter occurs more than `occ` times in an indexed map,
`ecl_file_map_alloc_blockmap` returns a view whose sequence is exactly the
contiguous run of the map's sequence from the position of the given
occurrence of the delimiter up to, but excluding, the next position whose
header equals the delimiter — or to the end of the sequence when there is
no later occurrence; in particular a delimiter occurring exactly `occ + 1`
times yields a block spanning to the end of the sequence. -/
theorem spec_C2_blockmap_window (m₀ : ecl_file_map) (delim : String) (occ : Nat)
    (h : occ < ecl_file_map_get_num_named_kw (ecl_file_map_make_index m₀) delim) :
    ∃ bm start stop,
      ecl_file_map_alloc_blockmap (ecl_file_map_make_index m₀) delim occ
        = some (some bm) ∧
      (positionsOf delim m₀.kw_list 0)[occ]? = some start ∧
      (∃ f, m₀.kw_list[start]? = some f ∧ f.header = delim) ∧
      start < stop ∧ stop ≤ m₀.kw_list.length ∧
      bm.kw_list = (m₀.kw_list.drop start).take (stop - start) ∧
      (∀ p f, start < p → p < stop → m₀.kw_list[p]? = some f →
        ¬ (f.header = delim)) ∧
      (stop = m₀.kw_list.length ∨
        ∃ f, m₀.kw_list[stop]? = some f ∧ f.header = delim) ∧
      (ecl_file_map_get_num_named_kw (ecl_file_map_make_index m₀) delim = occ + 1 →
        stop = m₀.kw_list.length) := by
  obtain ⟨bm, start, fkw, halloc, hgi, hpos, hfk, hfkh, hbm⟩ :=
    alloc_blockmap_of_lt m₀ delim occ h
  obtain ⟨hstartlt, hgetstart⟩ := List.getElem?_eq_some.mp hfk
  have hrestlen :
      (blockmap_rest delim (m₀.kw_list.drop (start + 1))).length
        ≤ m₀.kw_list.length - (start + 1) := by
    have h1 := blockmap_rest_length_le delim (m₀.kw_list.drop (start + 1))
    rwa [List.length_drop] at h1
  refine ⟨bm, start,
    start + 1 + (blockmap_rest delim (m₀.kw_list.drop (start + 1))).length,
    halloc, hpos, ⟨fkw, hfk, hfkh⟩, by omega, by omega, ?_, ?_, ?_, ?_⟩
  · rw [hbm, make_index_kw_list]
    rw [List.drop_eq_getElem_cons hstartlt, hgetstart]
    have hsub : start + 1 + (blockmap_rest delim (m₀.kw_list.drop (start + 1))).length
        - start = (blockmap_rest delim (m₀.kw_list.drop (start + 1))).length + 1 := by
      omega
    rw [hsub, List.take_succ_cons, blockmap_rest_take]
  · intro p f hp1 hp2 hpf
    have hj : p - start - 1 < (blockmap_rest delim (m₀.kw_list.drop (start + 1))).length := by
      omega
    obtain ⟨g, hg, hgne⟩ := blockmap_rest_inside delim (m₀.kw_list.drop (start + 1))
      (p - start - 1) hj
    rw [List.getElem?_drop] at hg
    have hpe : start + 1 + (p - start - 1) = p := by omega
    rw [hpe, hpf] at hg
    obtain rfl : f = g := Option.some.inj hg
    exact hgne
  · rcases blockmap_rest_boundary delim (m₀.kw_list.drop (start + 1)) with hb | ⟨g, hg, hgh⟩
    · left
      rw [List.length_drop] at hb
      omega
    · right
      rw [List.getElem?_drop] at hg
      exact ⟨g, hg, hgh⟩
  · intro hcnt
    rcases blockmap_rest_boundary delim (m₀.kw_list.drop (start + 1)) with hb | ⟨g, hg, hgh⟩
    · rw [List.length_drop] at hb
      omega
    · exfalso
      rw [List.getElem?_drop] at hg
      have hstopmem :
          (start + 1 + (blockmap_rest delim (m₀.kw_list.drop (start + 1))).length)
            ∈ positionsOf delim m₀.kw_list 0 :=
        (mem_positionsOf delim m₀.kw_list 0 _).mpr
          ⟨Nat.zero_le _, g, by rwa [Nat.sub_zero], hgh⟩
      have hlen : occ < (positionsOf delim m₀.kw_list 0).length := by
        rw [← get_num_named_kw_make_index]
        exact h
      have hvlen : (positionsOf delim m₀.kw_list 0).length = occ + 1 := by
        rw [← get_num_named_kw_make_index]
        exact hcnt
      obtain ⟨j, hj, hjeq⟩ := List.getElem_of_mem hstopmem
      have hpw := pairwise_positionsOf delim m₀.kw_list 0
      rw [List.pairwise_iff_getElem] at hpw
      have hstartval : (positionsOf delim m₀.kw_list 0)[occ] = start :=
        Option.some.inj ((List.getElem?_eq_getElem hlen).symm.trans hpos)
      by_cases hjo : j = occ
      · subst hjo
        have hss := hstartval.symm.trans hjeq
        omega
      · have hlt : (positionsOf delim m₀.kw_list 0)[j]
            < (positionsOf delim m₀.kw_list 0)[occ] :=
          hpw j occ hj hlen (by omega)
        omega

/-- C4: on an opened file, `ecl_file_select_block` either succeeds —
returning `true`, registering the derived view in `map_list` and setting
`active_map` to it, with `global_map` untouched — or returns `false` and
leaves the instance exactly as it was; it never aborts. -/
theorem spec_C4_select_block (stream : List (Option raw_record)) (kw : String)
    (occ : Nat) :
    ∃ r, ecl_file_select_block (ecl_file_open stream) kw occ = some r ∧
      ((r.1 = true ∧ ∃ bm,
          ecl_file_map_alloc_blockmap (ecl_file_open stream).global_map kw occ
            = some (some bm) ∧
          r.2.active_map = bm ∧
          r.2.map_list = (ecl_file_open stream).map_list ++ [bm] ∧
          r.2.global_map = (ecl_file_open stream).global_map) ∨
       (r.1 = false ∧ r.2 = ecl_file_open stream)) :=
  select_block_open_spec stream kw occ

/-- C5: block derivation is independent of the currently active map — after
any `ecl_file_select_block` on an opened file, deriving a block with
`ecl_file_get_blockmap` returns the same view as deriving it from the
freshly opened file, because derivation always reads `global_map`. -/
theorem spec_C5_derivation_from_global (stream : List (Option raw_record))
    (kw1 : String) (occ1 : Nat) (kw : String) (occ : Nat) (r : Bool × ecl_file)
    (h : ecl_file_select_block (ecl_file_open stream) kw1 occ1 = some r) :
    (ecl_file_get_blockmap r.2 kw occ).map (fun x => x.1)
      = (ecl_file_get_blockmap (ecl_file_open stream) kw occ).map (fun x => x.1) :=
  get_blockmap_global_only r.2 (ecl_file_open stream) kw occ
    (select_block_preserves_global (ecl_file_open stream) kw1 occ1 r h)

/-- C6: on an indexed map, for every valid position `p`,
`ecl_file_map_iget_occurence` returns an occurrence number `ith` of that
position's own header such that
`ecl_file_map_get_global_index (header, ith) = p`. -/
theorem spec_C6_reverse_occurrence (m₀ : ecl_file_map) (p : Nat) (fkw : ecl_file_kw)
    (h : m₀.kw_list[p]? = some fkw) :
    ∃ ith, ecl_file_map_iget_occurence (ecl_file_map_make_index m₀) p = some ith ∧
      ecl_file_map_get_global_index (ecl_file_map_make_index m₀) fkw.header ith
        = some p := by
  have hmem : fkw.header ∈ m₀.kw_list.map (fun f => f.header) :=
    List.mem_map.mpr ⟨fkw, List.getElem?_mem h, rfl⟩
  have hlook : assocLookup (ecl_file_map_make_index m₀).kw_index fkw.header
      = some (positionsOf fkw.header m₀.kw_list 0) := by
    rw [assocLookup_make_index, if_pos hmem]
  have hpmem : p ∈ positionsOf fkw.header m₀.kw_list 0 :=
    (mem_positionsOf fkw.header m₀.kw_list 0 p).mpr
      ⟨Nat.zero_le _, fkw, by rwa [Nat.sub_zero], rfl⟩
  obtain ⟨kk, hscan, hkk⟩ :=
    occurence_scan_mem (positionsOf fkw.header m₀.kw_list 0) p hpmem 0 none
  rw [Nat.zero_add] at hscan
  refine ⟨kk, ?_, ?_⟩
  · unfold ecl_file_map_iget_occurence
    simp only [make_index_kw_list, h, hlook]
    exact hscan
  · unfold ecl_file_map_get_global_index
    rw [hlook]
    exact hkk

/-- C7: the scan loop terminates at the first failed header read, without
raising any error, and the resulting global map indexes exactly the
records whose headers were read before that point — opening a stream
truncated after `good` is identical to opening the well-formed part. -/
theorem spec_C7_truncated_scan (good : List raw_record)
    (rest : List (Option raw_record)) :
    ecl_file_open (good.map some ++ none :: rest) = ecl_file_open (good.map some) ∧
    ((ecl_file_open (good.map some ++ none :: rest)).global_map.kw_list.map
        (fun f => f.header))
      = good.map (fun r => r.name) := by
  have h1 : ecl_file_scan (good.map some ++ none :: rest)
      = ecl_file_scan (good.map some) := by
    unfold ecl_file_scan
    rw [scan_loop_stop]
  constructor
  · exact congrArg
      (fun m => ({ global_map := m, active_map := m, map_list := [m] } : ecl_file)) h1
  · have h2 : (ecl_file_open (good.map some ++ none :: rest)).global_map.kw_list
        = ecl_file_scan_loop (good.map some) 0 := by
      show (ecl_file_scan (good.map some ++ none :: rest)).kw_list = _
      rw [h1]
      rfl
    rw [h2]
    exact scan_loop_names good 0

/-- C8: `ecl_file_open_block` returns `NULL` on every input — even when
the open and the block selection both succeed, the successfully opened and
block-selected instance is discarded; a usable instance is never
returned. -/
theorem spec_C8_open_block_null (stream : List (Option raw_record)) (kw : String)
    (occ : Nat) :
    ∃ r, ecl_file_select_block (ecl_file_open stream) kw occ = some r ∧
      ecl_file_open_block stream kw occ = some none := by
  obtain ⟨r, hr, -⟩ := select_block_open_spec stream kw occ
  refine ⟨r, hr, ?_⟩
  simp only [ecl_file_open_block, hr]

/-- C9 (counterexample): the stored `file_offset` is not the byte position
of the record's payload — for a single record whose header occupies 16
bytes the scan stores offset `0` (the position of the header), while the
payload begins at byte 16. -/
theorem spec_C9_offset_cex :
    (((ecl_file_open [some ⟨"KW1", 16, 8⟩]).global_map.kw_list[0]?).map
        (fun f => f.file_offset) = some 0) ∧
    payload_offset [⟨"KW1", 16, 8⟩] 0 = 16 ∧
    ¬ ((((ecl_file_open [some ⟨"KW1", 16, 8⟩]).global_map.kw_list[0]?).map
        (fun f => f.file_offset)) = some (payload_offset [⟨"KW1", 16, 8⟩] 0)) := by
  decide

/-- C9 (amended): the stored `file_offset` equals the byte position at
which the record itself starts — the stream position saved before the
header read — not the position after the header. -/
theorem spec_C9_offset_amended (records : List raw_record) (i : Nat)
    (fkw : ecl_file_kw)
    (h : (ecl_file_open (records.map some)).global_map.kw_list[i]? = some fkw) :
    fkw.file_offset = record_start_offset records i := by
  have h2 : (ecl_file_scan_loop (records.map some) 0)[i]? = some fkw := h
  have h3 := scan_loop_offset records 0 i fkw h2
  simpa using h3

/-! ## Witnesses -/

/-- The canonical seven-record file of the C source's documentation:
`SEQHDR, MINISTEP, PARAMS, MINISTEP, PARAMS, MINISTEP, PARAMS`. -/
def canonicalMap : ecl_file_map :=
  { kw_list := [⟨"SEQHDR", 0⟩, ⟨"MINISTEP", 0⟩, ⟨"PARAMS", 0⟩, ⟨"MINISTEP", 0⟩,
      ⟨"PARAMS", 0⟩, ⟨"MINISTEP", 0⟩, ⟨"PARAMS", 0⟩],
    kw_index := [], distinct_kw := [], owner := true }

/-- Witness for the C2 theorem at the canonical file: `SEQHDR` occurs once,
so the block at occurrence `0` spans all seven records. -/
theorem spec_C2_blockmap_window_witness :
    0 < ecl_file_map_get_num_named_kw (ecl_file_map_make_index canonicalMap) "SEQHDR" ∧
    (∃ bm start stop,
      ecl_file_map_alloc_blockmap (ecl_file_map_make_index canonicalMap) "SEQHDR" 0
        = some (some bm) ∧
      (positionsOf "SEQHDR" canonicalMap.kw_list 0)[0]? = some start ∧
      (∃ f, canonicalMap.kw_list[start]? = some f ∧ f.header = "SEQHDR") ∧
      start < stop ∧ stop ≤ canonicalMap.kw_list.length ∧
      bm.kw_list = (canonicalMap.kw_list.drop start).take (stop - start) ∧
      (∀ p f, start < p → p < stop → canonicalMap.kw_list[p]? = some f →
        ¬ (f.header = "SEQHDR")) ∧
      (stop = canonicalMap.kw_list.length ∨
        ∃ f, canonicalMap.kw_list[stop]? = some f ∧ f.header = "SEQHDR") ∧
      (ecl_file_map_get_num_named_kw (ecl_file_map_make_index canonicalMap) "SEQHDR"
          = 0 + 1 → stop = canonicalMap.kw_list.length)) :=
  ⟨by decide, spec_C2_blockmap_window canonicalMap "SEQHDR" 0 (by decide)⟩

/-- Witness for the C5 theorem on a concrete three-record file: after
selecting the block at the first `A`, deriving the `B` block returns the
same view as deriving it from the freshly opened file. -/
theorem spec_C5_derivation_from_global_witness :
    (ecl_file_get_blockmap
        ((ecl_file_select_block
            (ecl_file_open [some ⟨"A", 1, 1⟩, some ⟨"B", 1, 1⟩, some ⟨"A", 1, 1⟩])
            "A" 0).getD
          (false, ecl_file_open [some ⟨"A", 1, 1⟩, some ⟨"B", 1, 1⟩, some ⟨"A", 1, 1⟩])).2
        "B" 0).map (fun x => x.1)
      = (ecl_file_get_blockmap
          (ecl_file_open [some ⟨"A", 1, 1⟩, some ⟨"B", 1, 1⟩, some ⟨"A", 1, 1⟩])
          "B" 0).map (fun x => x.1) :=
  spec_C5_derivation_from_global
    [some ⟨"A", 1, 1⟩, some ⟨"B", 1, 1⟩, some ⟨"A", 1, 1⟩] "A" 0 "B" 0 _ (by decide)

/-- Witness for the C6 theorem at the canonical file: position `5` is the
third `MINISTEP` (occurrence `2`, positions `1, 3, 5`). -/
theorem spec_C6_reverse_occurrence_witness :
    ecl_file_map_iget_occurence (ecl_file_map_make_index canonicalMap) 5 = some 2 ∧
    (∃ ith, ecl_file_map_iget_occurence (ecl_file_map_make_index canonicalMap) 5
        = some ith ∧
      ecl_file_map_get_global_index (ecl_file_map_make_index canonicalMap) "MINISTEP" ith
        = some 5) :=
  ⟨by decide, spec_C6_reverse_occurrence canonicalMap 5 ⟨"MINISTEP", 0⟩ (by decide)⟩

/-- Witness for the amended C9 theorem on a concrete two-record stream:
the second handle's stored offset is `5`, the byte position at which the
second record (its header) starts. -/
theorem spec_C9_offset_amended_witness :
    (ecl_file_open (([⟨"A", 2, 3⟩, ⟨"B", 4, 5⟩] : List raw_record).map some)).global_map.kw_list[1]?
        = some ⟨"B", 5⟩ ∧
    (ecl_file_kw.mk "B" 5).file_offset = record_start_offset [⟨"A", 2, 3⟩, ⟨"B", 4, 5⟩] 1 :=
  ⟨by decide, spec_C9_offset_amended [⟨"A", 2, 3⟩, ⟨"B", 4, 5⟩] 1 ⟨"B", 5⟩ (by decide)⟩

